import Mathlib

/-
Verification of the engine's resource/asset management core (asset.rs):
the path helpers (get_dir, get_asset_path_local), the slot-based
ResourcePool with free-list reuse, the reference-counted ResourceRef
handles, and the per-thread type-indexed registry
(add_local_resource / with_local_resource).

Shallow embedding conventions:
- Rust panics (unwrap on None, out-of-bounds indexing, failed downcast)
  are modelled by returning `none` from an Option-valued function.
- `Arc<u32>` cells are modelled by a heap of allocations (`Heap`); an
  allocation records the u32 `value` stored in the cell and its `strong`
  reference count.  `Arc::get_mut` succeeds exactly when the allocation
  has a single strong reference.
- `TypeId` values are modelled as natural numbers.
- `HashMap` is modelled as an association list (first binding wins).
-/

namespace MuAsset

/-- One `Arc<u32>` allocation: `value` is the u32 held in the cell
(the handle liveness counter), `strong` its strong reference count. -/
structure Arc where
  value : Nat
  strong : Nat
deriving DecidableEq

/-- The store of all `Arc` allocations; an allocation id is an index
into this list.  Allocations are never removed from the model store
(a dead allocation just has `strong = 0`). -/
structure Heap where
  arcs : List Arc
deriving DecidableEq

/-- `ResourceRef<T>` from asset.rs: a slot index, the `TypeId` tag of
`T`, and (the allocation id of) the shared `Arc<u32>` counter.  The
`PhantomData` marker has no runtime content and is omitted. -/
structure ResourceRef where
  idx : Nat
  type_id : Nat
  ref_cnt : Nat
deriving DecidableEq

/-- `ResourceEntry<T>` from asset.rs: the stored resource together with
a clone of the handle's counter `Arc` (same allocation id). -/
structure ResourceEntry (T : Type) where
  resource : T
  ref_cnt : Nat
deriving DecidableEq

/-- `ResourcePool<T>` from asset.rs: a vector of optional entries plus
the free-index list. -/
structure ResourcePool (T : Type) where
  entries : List (Option (ResourceEntry T))
  free_indices : List Nat
deriving DecidableEq

/-- `ResourcePool::new()`: empty entries, empty free list. -/
def ResourcePool.new {T : Type} : ResourcePool T :=
  ⟨[], []⟩

/-- `ResourcePool::add(&mut self, res)`.  A fresh `Arc::new(1)` is
created and cloned into the entry, so the new allocation carries value 1
and strong count 2 (one reference in the pool entry, one in the returned
handle).  If the free list is non-empty the last index is popped
(`free_indices.remove(len - 1)`) and the entry stored there
(`self.entries[idx] = ...` panics if the index is out of range,
modelled by `none`); otherwise the entry is pushed at the end.
`tid` stands for `TypeId::of::<T>()`. -/
def ResourcePool.add {T : Type} (p : ResourcePool T) (hp : Heap) (tid : Nat)
    (res : T) : Option (ResourcePool T × Heap × ResourceRef) :=
  let aid := hp.arcs.length
  let hp' : Heap := ⟨hp.arcs ++ [⟨1, 2⟩]⟩
  let entry : ResourceEntry T := ⟨res, aid⟩
  match p.free_indices.getLast? with
  | none =>
      some (⟨p.entries ++ [some entry], p.free_indices⟩, hp',
        ⟨p.entries.length, tid, aid⟩)
  | some idx =>
      if idx < p.entries.length then
        some (⟨p.entries.set idx (some entry), p.free_indices.dropLast⟩, hp',
          ⟨idx, tid, aid⟩)
      else
        none

/-- `ResourcePool::get`: `self.entries[idx]` panics when the index is
out of range, and `.as_ref().unwrap()` panics when the slot is vacant;
both are modelled by `none`.  The handle's type tag is not consulted. -/
def ResourcePool.get {T : Type} (p : ResourcePool T) (r : ResourceRef) :
    Option T :=
  match p.entries[r.idx]? with
  | some (some e) => some e.resource
  | _ => none

/-- `ResourcePool::get_mut`: same access path as `get` through
`.as_mut().unwrap()`; the value reachable through the returned mutable
reference. -/
def ResourcePool.get_mut {T : Type} (p : ResourcePool T) (r : ResourceRef) :
    Option T :=
  match p.entries[r.idx]? with
  | some (some e) => some e.resource
  | _ => none

/-- `Clone for ResourceRef`: `ret.ref_cnt = self.ref_cnt.clone()` bumps
the allocation's strong count, then `Arc::get_mut(&mut ret.ref_cnt)`
yields a mutable borrow only if the allocation is uniquely referenced
(strong count exactly 1) and `.unwrap()` panics otherwise (`none`).
On success the u32 is incremented (`% 2^32` models u32 wrap-around). -/
def ResourceRef.clone (hp : Heap) (r : ResourceRef) :
    Option (Heap × ResourceRef) :=
  match hp.arcs[r.ref_cnt]? with
  | none => none
  | some a =>
      let a1 : Arc := ⟨a.value, a.strong + 1⟩
      if a1.strong = 1 then
        some (⟨hp.arcs.set r.ref_cnt ⟨(a1.value + 1) % 4294967296, a1.strong⟩⟩,
          ⟨r.idx, r.type_id, r.ref_cnt⟩)
      else
        none

/-- `Drop for ResourceRef`: `Arc::get_mut(&mut self.ref_cnt)` yields a
mutable borrow only if the allocation is uniquely referenced (strong
count exactly 1), `.unwrap()` panics otherwise (`none`).  On success the
u32 is decremented and then the handle's own `Arc` is destroyed, so the
strong count drops to 0. -/
def ResourceRef.drop (hp : Heap) (r : ResourceRef) : Option Heap :=
  match hp.arcs[r.ref_cnt]? with
  | none => none
  | some a =>
      if a.strong = 1 then
        some ⟨hp.arcs.set r.ref_cnt ⟨a.value - 1, a.strong - 1⟩⟩
      else
        none

/-- `str::find('/')` from `get_dir`: the index of the first occurrence
of the separator character, if any.  Over a character list the byte
index of the first ASCII `/` coincides with its character index. -/
def find_slash : List Char → Option Nat
  | [] => none
  | c :: cs => if c = '/' then some 0 else (find_slash cs).map (· + 1)

/-- `get_dir(path)` from asset.rs: the slice `path[0..ix]` before the
first `/` when one exists, the empty string otherwise. -/
def get_dir (path : String) : String :=
  match find_slash path.data with
  | some ix => ⟨path.data.take ix⟩
  | none => ""

/-- `get_asset_path_local(base_dir, path)` from asset.rs: the path
unchanged when the base directory is empty, otherwise
`format!` joining them with a `/` separator. -/
def get_asset_path_local (base_dir path : String) : String :=
  if base_dir.isEmpty then path else base_dir ++ "/" ++ path

/-- The content of one `Box<dyn Any>` stored in the thread-local
registry: in the reviewed code it holds either a `ResourcePool<T>` or a
`HashMap<TypeId, ResourcePool<T>>` (the value `add_local_resource`
actually inserts). -/
inductive AnyBox (T : Type) where
  | poolBox : ResourcePool T → AnyBox T
  | mapBox : List (Nat × ResourcePool T) → AnyBox T
deriving DecidableEq

/-- `downcast_mut::<ResourcePool<T>>()` on the type-erased box: succeeds
exactly when the box really holds a `ResourcePool<T>`. -/
def AnyBox.downcast_mut {T : Type} : AnyBox T → Option (ResourcePool T)
  | .poolBox p => some p
  | .mapBox _ => none

/-- The thread-local `ALL_RESOURCES` map, `TypeId -> Box<dyn Any>`,
modelled as an association list (first binding wins). -/
def Registry (T : Type) : Type :=
  List (Nat × AnyBox T)

/-- `HashMap::insert`-style update of an existing key. -/
def regUpdate {T : Type} (m : Registry T) (k : Nat) (v : AnyBox T) :
    Registry T :=
  m.map fun kv => if kv.1 = k then (k, v) else kv

/-- `add_local_resource::<T>(res)` from asset.rs.  When the registry has
no binding for `TypeId::of::<T>()` it inserts
`Box::new(HashMap::<TypeId, ResourcePool<T>>::new())`; it then fetches
the box and calls `.downcast_mut::<ResourcePool<T>>().unwrap()`
(`none` models the unwrap panic) before delegating to
`ResourcePool::add`. -/
def add_local_resource {T : Type} (m : Registry T) (hp : Heap) (tid : Nat)
    (res : T) : Option (Registry T × Heap × ResourceRef) :=
  let m1 := if (List.lookup tid m).isSome then m else (tid, AnyBox.mapBox []) :: m
  match List.lookup tid m1 with
  | none => none
  | some box =>
      match box.downcast_mut with
      | none => none
      | some pool =>
          match pool.add hp tid res with
          | none => none
          | some (p', hp', r) => some (regUpdate m1 tid (.poolBox p'), hp', r)

/-- `with_local_resource(res_ref, f)` from asset.rs: fetch the box under
the handle's `type_id` (`.unwrap()` panics when absent), downcast it
(`.unwrap()` panics on failure), then mutate
`pool.entries[res_ref.idx].as_mut().unwrap().resource` through `f`
(index panic / unwrap panic modelled by `none`). -/
def with_local_resource {T : Type} (m : Registry T) (r : ResourceRef)
    (f : T → T) : Option (Registry T) :=
  match List.lookup r.type_id m with
  | none => none
  | some box =>
      match box.downcast_mut with
      | none => none
      | some pool =>
          match pool.entries[r.idx]? with
          | some (some e) =>
              some (regUpdate m r.type_id
                (.poolBox ⟨pool.entries.set r.idx (some ⟨f e.resource, e.ref_cnt⟩),
                  pool.free_indices⟩))
          | _ => none

/-! ## Helper lemmas -/

lemma lt_length_of_getElem?_eq_some {α : Type} {l : List α} {i : Nat} {a : α}
    (h : l[i]? = some a) : i < l.length := by
  by_contra hc
  rw [List.getElem?_eq_none_iff.mpr (Nat.le_of_not_lt hc)] at h
  exact Option.noConfusion h

/-- The ResourcePool representation invariant from the spec: an index is
in the free list iff its slot exists and is vacant, and the free list
has no duplicates.  (The third spec clause — no occupied index aliases
two live resources — is structural here: each slot holds at most one
entry.) -/
def PoolInv {T : Type} (p : ResourcePool T) : Prop :=
  (∀ i : Nat, i ∈ p.free_indices ↔ p.entries[i]? = some none) ∧
  p.free_indices.Nodup

lemma poolInv_new {T : Type} : PoolInv (ResourcePool.new (T := T)) := by
  constructor
  · intro i
    simp [ResourcePool.new]
  · simp [ResourcePool.new]

/-- Main helper about `ResourcePool.add` on a well-formed pool: it
succeeds, appends exactly one `Arc` allocation of value 1 and strong
count 2, preserves the invariant, and leaves every occupied slot
unchanged. -/
lemma add_of_inv {T : Type} {p : ResourcePool T} (hp : Heap) (tid : Nat)
    (v : T) (hinv : PoolInv p) :
    ∃ p' r, p.add hp tid v = some (p', ⟨hp.arcs ++ [⟨1, 2⟩]⟩, r) ∧
      PoolInv p' ∧
      ∀ (i : Nat) (e : ResourceEntry T),
        p.entries[i]? = some (some e) → p'.entries[i]? = some (some e) := by
  obtain ⟨hmem, hnd⟩ := hinv
  cases hfl : p.free_indices.getLast? with
  | none =>
    have hnil : p.free_indices = [] := List.getLast?_eq_none_iff.mp hfl
    refine ⟨⟨p.entries ++ [some ⟨v, hp.arcs.length⟩], p.free_indices⟩,
      ⟨p.entries.length, tid, hp.arcs.length⟩, ?_, ⟨?_, ?_⟩, ?_⟩
    · simp [ResourcePool.add, hfl]
    · intro i
      rw [hnil]
      simp only [List.not_mem_nil, false_iff]
      intro hcon
      rw [List.getElem?_append] at hcon
      by_cases hi : i < p.entries.length
      · rw [if_pos hi] at hcon
        have : i ∈ p.free_indices := (hmem i).mpr hcon
        rw [hnil] at this
        exact List.not_mem_nil i this
      · rw [if_neg hi] at hcon
        rcases hk : i - p.entries.length with _ | k
        · rw [hk] at hcon
          simp at hcon
        · rw [hk] at hcon
          simp at hcon
    · exact hnd
    · intro i e hocc
      have hlt : i < p.entries.length := lt_length_of_getElem?_eq_some hocc
      rw [List.getElem?_append, if_pos hlt]
      exact hocc
  | some i =>
    have hne : p.free_indices ≠ [] := by
      intro h
      rw [h] at hfl
      exact Option.noConfusion hfl
    have hdec : p.free_indices.dropLast ++ [i] = p.free_indices :=
      List.dropLast_append_getLast? i hfl
    have hiF : i ∈ p.free_indices := by
      rw [← hdec]
      exact List.mem_append_right _ (List.mem_singleton.mpr rfl)
    have hvac : p.entries[i]? = some none := (hmem i).mp hiF
    have hlt : i < p.entries.length := lt_length_of_getElem?_eq_some hvac
    have hndSplit : p.free_indices.dropLast.Nodup ∧
        ∀ j, j ∈ p.free_indices.dropLast → j ≠ i := by
      rw [← hdec, List.nodup_append] at hnd
      exact ⟨hnd.1, fun j hj hji =>
        hnd.2.2 hj (hji ▸ List.mem_singleton.mpr rfl)⟩
    refine ⟨⟨p.entries.set i (some ⟨v, hp.arcs.length⟩), p.free_indices.dropLast⟩,
      ⟨i, tid, hp.arcs.length⟩, ?_, ⟨?_, ?_⟩, ?_⟩
    · simp [ResourcePool.add, hfl, hlt]
    · intro j
      constructor
      · intro hj
        have hji : j ≠ i := hndSplit.2 j hj
        rw [List.getElem?_set_ne (fun h => hji h.symm)]
        refine (hmem j).mp ?_
        rw [← hdec]
        exact List.mem_append_left _ hj
      · intro hj
        by_cases hji : j = i
        · subst hji
          rw [List.getElem?_set_eq_of_lt _ hlt] at hj
          exact Option.noConfusion (Option.some.inj hj)
        · rw [List.getElem?_set_ne (fun h => hji h.symm)] at hj
          have : j ∈ p.free_indices := (hmem j).mpr hj
          rw [← hdec] at this
          rcases List.mem_append.mp this with h | h
          · exact h
          · exact absurd (List.mem_singleton.mp h) hji
    · exact hndSplit.1
    · intro j e hocc
      have hji : j ≠ i := by
        intro h
        rw [h, hvac] at hocc
        exact Option.noConfusion (Option.some.inj hocc)
      rw [List.getElem?_set_ne (fun h => hji h.symm)]
      exact hocc

lemma find_slash_eq_none_iff (l : List Char) :
    find_slash l = none ↔ '/' ∉ l := by
  induction l with
  | nil => simp [find_slash]
  | cons c cs ih =>
    by_cases hc : c = '/'
    · subst hc
      simp [find_slash]
    · simp [find_slash, hc, Option.map_eq_none, ih]
      intro _ h
      exact hc h.symm

lemma take_find_slash (l : List Char) :
    (match find_slash l with
     | some ix => l.take ix
     | none => ([] : List Char)) =
    if '/' ∈ l then l.takeWhile (· != '/') else [] := by
  induction l with
  | nil => simp [find_slash]
  | cons c cs ih =>
    by_cases hc : c = '/'
    · subst hc
      simp [find_slash, List.takeWhile_cons]
    · rw [show find_slash (c :: cs) = (find_slash cs).map (· + 1) by
        simp [find_slash, hc]]
      cases hfs : find_slash cs with
      | none =>
        have hnm : '/' ∉ cs := (find_slash_eq_none_iff cs).mp hfs
        have hmc : '/' ∉ c :: cs := by
          intro h
          rcases List.mem_cons.mp h with h1 | h1
          · exact hc h1.symm
          · exact hnm h1
        simp [hmc]
      | some k =>
        have hm : '/' ∈ cs := by
          by_contra hnm
          rw [(find_slash_eq_none_iff cs).mpr hnm] at hfs
          exact Option.noConfusion hfs
        have hmc : '/' ∈ c :: cs := List.mem_cons_of_mem c hm
        rw [hfs] at ih
        rw [if_pos hm] at ih
        simp only [Option.map_some, List.take_succ_cons, if_pos hmc,
          List.takeWhile_cons]
        rw [show (c != '/') = true by simp [hc]]
        simpa using ih

/-! ## Claim theorems -/

/-- Claim C1 (code bug).  The claim says clone increments and drop
decrements the shared liveness counter so that it always equals the
number of live handle copies.  In the code both mutations go through
`Arc::get_mut(...).unwrap()`, which succeeds only when the counter
allocation has exactly one strong reference; `ResourcePool::add` stores
a second clone of the counter `Arc` inside the pool entry, so the
allocation of any handle returned by `add` has strong count 2 and every
`clone()` or `drop()` of that handle panics instead of adjusting the
counter.  The last two conjuncts show the failure is unconditional:
`clone` panics for every live allocation (strong count ≥ 1) and `drop`
panics for every allocation with a second reference (strong count ≥ 2,
as for every pool-issued handle). -/
theorem resource_ref_count_broken :
    ResourcePool.add (ResourcePool.new (T := Nat)) ⟨[]⟩ 0 42
      = some (⟨[some ⟨42, 0⟩], []⟩, ⟨[⟨1, 2⟩]⟩, ⟨0, 0, 0⟩) ∧
    ResourceRef.clone ⟨[⟨1, 2⟩]⟩ ⟨0, 0, 0⟩ = none ∧
    ResourceRef.drop ⟨[⟨1, 2⟩]⟩ ⟨0, 0, 0⟩ = none ∧
    (∀ val s : Nat, ResourceRef.clone ⟨[⟨val, s + 1⟩]⟩ ⟨0, 0, 0⟩ = none) ∧
    (∀ val s : Nat, ResourceRef.drop ⟨[⟨val, s + 2⟩]⟩ ⟨0, 0, 0⟩ = none) := by
  refine ⟨rfl, rfl, rfl, ?_, ?_⟩
  · intro val s
    simp [ResourceRef.clone]
  · intro val s
    simp [ResourceRef.drop]

/-- Claim C2: the value stored by `ResourcePool::add` is exactly what
`ResourcePool::get` returns for the handle `add` produced (whenever
`add` did not panic). -/
theorem pool_add_get_roundtrip (T : Type) (p p' : ResourcePool T)
    (hp hp' : Heap) (tid : Nat) (v : T) (r : ResourceRef)
    (h : p.add hp tid v = some (p', hp', r)) : p'.get r = some v := by
  simp only [ResourcePool.add] at h
  split at h
  · simp only [Option.some.injEq, Prod.mk.injEq] at h
    obtain ⟨h1, _, h3⟩ := h
    subst h1 h3
    simp [ResourcePool.get, List.getElem?_concat_length]
  · rename_i i hfl
    split at h
    · rename_i hlt
      simp only [Option.some.injEq, Prod.mk.injEq] at h
      obtain ⟨h1, _, h3⟩ := h
      subst h1 h3
      simp [ResourcePool.get, List.getElem?_set_eq_of_lt _ hlt]
    · exact Option.noConfusion h

theorem pool_add_get_roundtrip_witness :
    ResourcePool.get (⟨[some ⟨7, 0⟩], []⟩ : ResourcePool Nat) ⟨0, 0, 0⟩
      = some 7 :=
  pool_add_get_roundtrip Nat ResourcePool.new ⟨[some ⟨7, 0⟩], []⟩ ⟨[]⟩
    ⟨[⟨1, 2⟩]⟩ 0 7 ⟨0, 0, 0⟩ rfl

/-- Claim C3 (code bug).  The claim says `add_local_resource` lazily
creates the pool for `T`, inserts the value and returns a usable handle.
In the code the lazy-creation branch inserts
`Box::new(HashMap::<TypeId, ResourcePool<T>>::new())` — a `HashMap`,
not a `ResourcePool<T>` — so the following
`.downcast_mut::<ResourcePool<T>>().unwrap()` always panics: on an
empty registry, and equally on a registry already holding the
wrongly-typed box from a previous call.  No pool is ever created and no
value inserted. -/
theorem add_local_resource_lazy_create_fails :
    add_local_resource ([] : Registry Nat) ⟨[]⟩ 0 7 = none ∧
    add_local_resource [(0, AnyBox.mapBox [])] (⟨[]⟩ : Heap) 0 7 = none := by
  exact ⟨rfl, rfl⟩

/-- Claim C4: `add` pops the LIFO end (last element) of a non-empty
free list and stores the value there, returning a handle with that
index and a fresh counter of value 1; on an empty free list it appends
a slot at the end, the returned index being the old length, i.e. the
new length minus one. -/
theorem pool_add_free_list_lifo (T : Type) (p : ResourcePool T) (hp : Heap)
    (tid : Nat) (v : T) :
    (p.free_indices = [] →
      p.add hp tid v = some (⟨p.entries ++ [some ⟨v, hp.arcs.length⟩],
        p.free_indices⟩, ⟨hp.arcs ++ [⟨1, 2⟩]⟩,
        ⟨p.entries.length, tid, hp.arcs.length⟩)) ∧
    (∀ i : Nat, p.free_indices.getLast? = some i → i < p.entries.length →
      p.add hp tid v = some (⟨p.entries.set i (some ⟨v, hp.arcs.length⟩),
        p.free_indices.dropLast⟩, ⟨hp.arcs ++ [⟨1, 2⟩]⟩,
        ⟨i, tid, hp.arcs.length⟩)) := by
  constructor
  · intro h
    simp [ResourcePool.add, h]
  · intro i hL hlt
    simp [ResourcePool.add, hL, hlt]

theorem pool_add_free_list_lifo_witness :
    ResourcePool.add (ResourcePool.new (T := Nat)) ⟨[]⟩ 2 11
      = some (⟨[some ⟨11, 0⟩], []⟩, ⟨[⟨1, 2⟩]⟩, ⟨0, 2, 0⟩) ∧
    ResourcePool.add (⟨[none], [0]⟩ : ResourcePool Nat) ⟨[]⟩ 3 9
      = some (⟨[some ⟨9, 0⟩], []⟩, ⟨[⟨1, 2⟩]⟩, ⟨0, 3, 0⟩) :=
  ⟨(pool_add_free_list_lifo Nat ResourcePool.new ⟨[]⟩ 2 11).1 rfl,
   (pool_add_free_list_lifo Nat ⟨[none], [0]⟩ ⟨[]⟩ 3 9).2 0 rfl (by decide)⟩

/-- Claim C5: `get_asset_path_local` returns the relative path
unchanged when the base directory is empty, and otherwise joins the two
with the `/` separator. -/
theorem get_asset_path_local_spec (b p : String) :
    (b = "" → get_asset_path_local b p = p) ∧
    (b ≠ "" → get_asset_path_local b p = b ++ "/" ++ p) := by
  constructor
  · intro h
    subst h
    rfl
  · intro h
    simp [get_asset_path_local, String.isEmpty_iff, h]

theorem get_asset_path_local_spec_witness :
    get_asset_path_local "" "x.png" = "x.png" ∧
    get_asset_path_local "dir" "x.png" = "dir/x.png" :=
  ⟨(get_asset_path_local_spec "" "x.png").1 rfl,
   (get_asset_path_local_spec "dir" "x.png").2 (by decide)⟩

/-- Claim C6: `get_dir` returns the characters strictly before the
first `/` when the path contains one, and the empty string otherwise;
in particular on `a/b/c` it returns `a` and on `abc` the empty
string. -/
theorem get_dir_spec :
    (∀ path : String, (get_dir path).data =
      if '/' ∈ path.data then path.data.takeWhile (· != '/') else []) ∧
    get_dir "a/b/c" = "a" ∧ get_dir "abc" = "" := by
  refine ⟨?_, rfl, rfl⟩
  intro path
  have h := take_find_slash path.data
  simp only [get_dir]
  cases hfs : find_slash path.data with
  | none =>
    rw [hfs] at h
    exact h
  | some ix =>
    rw [hfs] at h
    exact h

/-- Claim C7: `get`/`get_mut` return the stored resource when the
handle's index is in range and the slot occupied, and panic (modelled
as `none`) when the index is out of range or the slot vacant — never a
silent wrong value. -/
theorem pool_get_contract (T : Type) (p : ResourcePool T) (r : ResourceRef) :
    (∀ e : ResourceEntry T, p.entries[r.idx]? = some (some e) →
      p.get r = some e.resource ∧ p.get_mut r = some e.resource) ∧
    (p.entries.length ≤ r.idx ∨ p.entries[r.idx]? = some none →
      p.get r = none ∧ p.get_mut r = none) := by
  constructor
  · intro e he
    constructor
    · simp [ResourcePool.get, he]
    · simp [ResourcePool.get_mut, he]
  · intro h
    have hnone : p.entries[r.idx]? = none ∨ p.entries[r.idx]? = some none := by
      rcases h with h | h
      · exact Or.inl (List.getElem?_eq_none_iff.mpr h)
      · exact Or.inr h
    rcases hnone with h' | h' <;>
      exact ⟨by simp [ResourcePool.get, h'], by simp [ResourcePool.get_mut, h']⟩

theorem pool_get_contract_witness :
    ResourcePool.get (⟨[some ⟨5, 0⟩, none], []⟩ : ResourcePool Nat) ⟨0, 0, 0⟩
      = some 5 ∧
    ResourcePool.get (⟨[some ⟨5, 0⟩, none], []⟩ : ResourcePool Nat) ⟨1, 0, 0⟩
      = none ∧
    ResourcePool.get (⟨[some ⟨5, 0⟩, none], []⟩ : ResourcePool Nat) ⟨2, 0, 0⟩
      = none :=
  ⟨((pool_get_contract Nat ⟨[some ⟨5, 0⟩, none], []⟩ ⟨0, 0, 0⟩).1 ⟨5, 0⟩ rfl).1,
   ((pool_get_contract Nat ⟨[some ⟨5, 0⟩, none], []⟩ ⟨1, 0, 0⟩).2
      (Or.inr rfl)).1,
   ((pool_get_contract Nat ⟨[some ⟨5, 0⟩, none], []⟩ ⟨2, 0, 0⟩).2
      (Or.inl (by decide))).1⟩

/-- Claim C8: the pool representation invariant (free list ↔ vacant
slot, free list duplicate-free) holds for `ResourcePool::new` and is
preserved by every sequence of `add` operations: on a well-formed pool
`add` cannot panic and its result is well-formed again. -/
theorem pool_invariant_new_add (T : Type) :
    PoolInv (ResourcePool.new (T := T)) ∧
    ∀ (p : ResourcePool T) (hp : Heap) (tid : Nat) (v : T), PoolInv p →
      ∃ (p' : ResourcePool T) (hp' : Heap) (r : ResourceRef),
        p.add hp tid v = some (p', hp', r) ∧ PoolInv p' := by
  refine ⟨poolInv_new, ?_⟩
  intro p hp tid v hinv
  obtain ⟨p', r, hadd, hinv', _⟩ := add_of_inv hp tid v hinv
  exact ⟨p', ⟨hp.arcs ++ [⟨1, 2⟩]⟩, r, hadd, hinv'⟩

theorem pool_invariant_new_add_witness :
    PoolInv (ResourcePool.new (T := Nat)) ∧
    ∃ (p' : ResourcePool Nat) (hp' : Heap) (r : ResourceRef),
      ResourcePool.add (ResourcePool.new (T := Nat)) ⟨[]⟩ 0 5
        = some (p', hp', r) ∧ PoolInv p' :=
  ⟨(pool_invariant_new_add Nat).1,
   (pool_invariant_new_add Nat).2 ResourcePool.new ⟨[]⟩ 0 5
     (pool_invariant_new_add Nat).1⟩

/-- Claim C9: occupied indices are stable — on a well-formed pool,
`add` succeeds and leaves every occupied slot and the resource entry
stored in it unchanged. -/
theorem pool_add_occupied_stable (T : Type) (p : ResourcePool T) (hp : Heap)
    (tid : Nat) (v : T) (i : Nat) (e : ResourceEntry T)
    (hinv : PoolInv p) (hocc : p.entries[i]? = some (some e)) :
    ∃ (p' : ResourcePool T) (hp' : Heap) (r : ResourceRef),
      p.add hp tid v = some (p', hp', r) ∧
      p'.entries[i]? = some (some e) := by
  obtain ⟨p', r, hadd, _, hframe⟩ := add_of_inv hp tid v hinv
  exact ⟨p', ⟨hp.arcs ++ [⟨1, 2⟩]⟩, r, hadd, hframe i e hocc⟩

theorem pool_add_occupied_stable_witness :
    ∃ (p' : ResourcePool Nat) (hp' : Heap) (r : ResourceRef),
      ResourcePool.add (⟨[some ⟨9, 0⟩], []⟩ : ResourcePool Nat) ⟨[]⟩ 0 4
        = some (p', hp', r) ∧ p'.entries[0]? = some (some ⟨9, 0⟩) :=
  pool_add_occupied_stable Nat ⟨[some ⟨9, 0⟩], []⟩ ⟨[]⟩ 0 4 0 ⟨9, 0⟩
    (by
      constructor
      · intro j
        constructor
        · intro hj
          exact absurd hj (List.not_mem_nil j)
        · intro hj
          rcases j with _ | j
          · simp at hj
          · simp at hj
      · exact List.nodup_nil)
    rfl

/-- Claim C10: only the character `/` acts as a path separator in
`get_dir`; a root-anchored path starting with `/` yields the empty
string, indistinguishable from a path with no separator at all. -/
theorem get_dir_separator_edge :
    (∀ rest : List Char, get_dir ⟨'/' :: rest⟩ = "") ∧
    (∀ path : String, '/' ∉ path.data → get_dir path = "") ∧
    get_dir "/a/b" = "" ∧ get_dir "a\\b\\c" = "" ∧
    get_dir "/a/b" = get_dir "abc" := by
  refine ⟨?_, ?_, rfl, by decide, rfl⟩
  · intro rest
    rfl
  · intro path h
    simp only [get_dir]
    rw [(find_slash_eq_none_iff path.data).mpr h]

theorem get_dir_separator_edge_witness : get_dir "windows.style.path" = "" :=
  get_dir_separator_edge.2.1 "windows.style.path" (by decide)

end MuAsset
